import Mathlib

/-!
Verification of the PIO quadrature-encoder decoder (`src/pio/pio_qei.py`).

The source is a 29-instruction RP2040 PIO program (`QEI_prog`, padded to 32
instructions with three `nop`s so it loads at address 0) together with a small
host wrapper (`PIOQEI`).  We embed the state machine shallowly: the four
32-bit registers X, Y, ISR, OSR, the program counter, and the two 4-deep
hardware FIFOs (TX: host to state machine, RX: state machine to host).
Machine words are `Nat` reduced modulo `2 ^ 32` at every operation that can
overflow; bitwise complement of a 32-bit word `v` is `2 ^ 32 - 1 - v`.

`step` executes the instruction at the current program counter, exactly one
branch per source instruction (the address layout follows the program: the
16-way jump table sits at addresses 0..14, with key 15 falling directly onto
the loop head at address 15).  `iter` runs one full sampling pass: from the
loop head (`pc = 15`, label `update`, which is also the wrap target) until
control returns there, with fuel strictly larger than the longest path.
-/

/-- `2 ^ 32`, the modulus of the 32-bit PIO registers. -/
def W : Nat := 4294967296

/-- Bitwise complement of a 32-bit word: for `v < W`, `NOT v = W - 1 - v`
(the `invert(...)` source operand of the PIO `mov` instruction). -/
def invert32 (v : Nat) : Nat := (W - 1) - v % W

/-- State of one PIO state machine running `QEI_prog`, plus its two FIFOs.
`y` is the encoder count, `isr` carries the previous 2-bit pin sample in its
low bits between passes, `tx` is the host-to-machine FIFO (requests), `rx`
the machine-to-host FIFO (produced counts); both FIFOs hold at most 4 words. -/
structure SM where
  x : Nat
  y : Nat
  isr : Nat
  osr : Nat
  pc : Nat
  tx : List Nat
  rx : List Nat
deriving DecidableEq, Repr

/-- One instruction of `QEI_prog`, at the current `pc`, with the 2 phase pins
currently reading `pins` (only its low 2 bits are ever shifted in).
Addresses follow the program as loaded at origin 0:
0..14 jump table (address = 4-bit key `prev << 2 | cur`), 15 `update`
(wrap target), 22 `sample_pins`, 26 `increment`, 14 `decrement`,
29..31 `nop` padding. -/
def step (pins : Nat) (s : SM) : SM :=
  -- nop() padding at addresses 29..31 (never reached from the loop)
  if 29 ≤ s.pc then { s with pc := (s.pc + 1) % 32 }
  -- 00 state
  else if s.pc = 0 then { s with pc := 15 }       -- jmp update      (read 00)
  else if s.pc = 1 then { s with pc := 14 }       -- jmp decrement   (read 01)
  else if s.pc = 2 then { s with pc := 26 }       -- jmp increment   (read 10)
  else if s.pc = 3 then { s with pc := 15 }       -- jmp update      (read 11)
  -- 01 state
  else if s.pc = 4 then { s with pc := 26 }       -- jmp increment   (read 00)
  else if s.pc = 5 then { s with pc := 15 }       -- jmp update      (read 01)
  else if s.pc = 6 then { s with pc := 15 }       -- jmp update      (read 10)
  else if s.pc = 7 then { s with pc := 14 }       -- jmp decrement   (read 11)
  -- 10 state
  else if s.pc = 8 then { s with pc := 14 }       -- jmp decrement   (read 00)
  else if s.pc = 9 then { s with pc := 15 }       -- jmp update      (read 01)
  else if s.pc = 10 then { s with pc := 15 }      -- jmp update      (read 10)
  else if s.pc = 11 then { s with pc := 26 }      -- jmp increment   (read 11)
  -- 11 state
  else if s.pc = 12 then { s with pc := 15 }      -- jmp update      (read 00)
  else if s.pc = 13 then { s with pc := 26 }      -- jmp increment   (read 01)
  -- label("decrement"): jmp(y_dec, "update"), target is the next address, so
  -- this is a pure wrapping decrement of Y whatever Y holds   (read 10)
  else if s.pc = 14 then { s with y := (s.y + (W - 1)) % W, pc := 15 }
  -- wrap_target, label("update")
  else if s.pc = 15 then { s with x := 0, pc := 16 }            -- set(x, 0)
  -- pull(noblock): OSR gets the TX FIFO head, or X if the FIFO is empty
  else if s.pc = 16 then
    (match s.tx with
     | [] => { s with osr := s.x, pc := 17 }
     | v :: rest => { s with osr := v, tx := rest, pc := 17 })
  else if s.pc = 17 then { s with x := s.osr, pc := 18 }        -- mov(x, osr)
  else if s.pc = 18 then { s with osr := s.isr, pc := 19 }      -- mov(osr, isr)
  else if s.pc = 19 then { s with pc := if s.x = 0 then 22 else 20 }
                                                  -- jmp(not_x, "sample_pins")
  else if s.pc = 20 then { s with isr := s.y, pc := 21 }        -- mov(isr, y)
  -- push(): blocking; appends ISR to the RX FIFO and clears ISR, or stalls
  -- (state unchanged, pc stays) while the RX FIFO is full
  else if s.pc = 21 then
    (if s.rx.length < 4
     then { s with rx := s.rx ++ [s.isr], isr := 0, pc := 22 }
     else s)
  -- label("sample_pins")
  else if s.pc = 22 then { s with isr := 0, pc := 23 }          -- mov(isr, null)
  -- in_(osr, 2): ISR shifts left, the low 2 bits of OSR enter at the bottom
  else if s.pc = 23 then { s with isr := (s.isr * 4 + s.osr % 4) % W, pc := 24 }
  -- in_(pins, 2)
  else if s.pc = 24 then { s with isr := (s.isr * 4 + pins % 4) % W, pc := 25 }
  else if s.pc = 25 then { s with pc := s.isr % 32 }            -- mov(pc, isr)
  -- label("increment"): negate, decrement, negate
  else if s.pc = 26 then { s with x := invert32 s.y, pc := 27 } -- mov(x, invert(y))
  -- jmp(x_dec, "increment_cont"): target is the next address, pure decrement of X
  else if s.pc = 27 then { s with x := (s.x + (W - 1)) % W, pc := 28 }
  else { s with y := invert32 s.x, pc := 15 }    -- 28: mov(y, invert(x)); wrap()

/-- Run `step` until the program counter returns to the loop head 15,
with the given fuel (a stalled `push` never reaches 15 and exhausts it). -/
def stepsTo15 (pins : Nat) : Nat → SM → SM
  | 0, s => s
  | n + 1, s =>
    let t := step pins s
    if t.pc = 15 then t else stepsTo15 pins n t

/-- One full sampling pass, from the loop head back to the loop head.
The longest path through the loop is 15 instructions, so fuel 20 suffices. -/
def iter (pins : Nat) (s : SM) : SM := stepsTo15 pins 20 s

/-- Replay a sequence of pin samples, one sampling pass per sample. -/
def runPins (s : SM) : List Nat → SM
  | [] => s
  | p :: rest => runPins (iter p s) rest

/-- Power-on state: all registers zero, both FIFOs empty, pc at address 0
(the program is loaded at origin 0 and the state machine starts there). -/
def initSM : SM := ⟨0, 0, 0, 0, 0, [], []⟩

/-- The state after the single boot instruction (address 0 is `jmp update`):
at the loop head with all registers zero and empty FIFOs. -/
def initTop : SM := ⟨0, 0, 0, 0, 15, [], []⟩

/-- The three actions of the quadrature transition table. -/
inductive QAct where
  | inc
  | dec
  | noop
deriving DecidableEq, Repr

/-- The 16-entry quadrature transition table exactly as the specification
states it (rows are the previous 2-bit state, columns the new one):
row 00: NoOp, Dec, Inc, NoOp; row 01: Inc, NoOp, NoOp, Dec;
row 10: Dec, NoOp, NoOp, Inc; row 11: NoOp, Inc, Dec, NoOp. -/
def specTable (prev cur : Nat) : QAct :=
  if prev % 4 = 0 then
    (if cur % 4 = 0 then .noop else if cur % 4 = 1 then .dec
     else if cur % 4 = 2 then .inc else .noop)
  else if prev % 4 = 1 then
    (if cur % 4 = 0 then .inc else if cur % 4 = 1 then .noop
     else if cur % 4 = 2 then .noop else .dec)
  else if prev % 4 = 2 then
    (if cur % 4 = 0 then .dec else if cur % 4 = 1 then .noop
     else if cur % 4 = 2 then .noop else .inc)
  else
    (if cur % 4 = 0 then .noop else if cur % 4 = 1 then .inc
     else if cur % 4 = 2 then .dec else .noop)

/-- Apply a table action to a 32-bit counter. -/
def applyAction (a : QAct) (c : Nat) : Nat :=
  match a with
  | .inc => (c + 1) % W
  | .dec => (c + (W - 1)) % W
  | .noop => c

/-- Direct table-driven simulation: thread the previous sample and the
counter through a sample sequence, applying the table action to each
(previous, current) pair. -/
def specSim (prev c : Nat) : List Nat → Nat
  | [] => c
  | p :: rest => specSim p (applyAction (specTable prev p) c) rest

/-- Effect of the jump-table entry at 4-bit key `k` on the Y register,
written with the raw machine arithmetic (keys 1, 7, 8, 14 reach the
`decrement` instruction; keys 2, 4, 11, 13 reach the `increment` block;
every other key jumps straight back to `update`). -/
def tableY (k y : Nat) : Nat :=
  if k = 1 ∨ k = 7 ∨ k = 8 ∨ k = 14 then (y + (W - 1)) % W
  else if k = 2 ∨ k = 4 ∨ k = 11 ∨ k = 13 then
    invert32 ((invert32 y + (W - 1)) % W)
  else y

/-- Value of the X register when a pass returns to the loop head, given the
key taken and the value `x0` X held after the front part of the pass
(0 when nothing was pulled or 0 was pulled, the pulled word otherwise). -/
def tableX (k x0 y : Nat) : Nat :=
  if k = 2 ∨ k = 4 ∨ k = 11 ∨ k = 13 then (invert32 y + (W - 1)) % W else x0

/-- Host side `sm.put(1)` performed by `PIOQEI.get`: append the word 1 to the
TX FIFO (the hardware `put` blocks while the FIFO is full, so a full FIFO is
left unchanged here). -/
def hostRequest (s : SM) : SM :=
  if s.tx.length < 4 then { s with tx := s.tx ++ [1] } else s

/-- Host side blocking `sm.get()` observed across a window of sampling
passes: poll the RX FIFO head, running one sampling pass (with the given
pin reading) between polls.  `some v` is the value the call returns; `none`
means the RX FIFO is still empty when the window ends, i.e. the call is
still blocked waiting for a value. -/
def smGet : List Nat → SM → Option Nat
  | [], s => s.rx.head?
  | p :: rest, s =>
    match s.rx with
    | v :: _ => some v
    | [] => smGet rest (iter p s)

/-- `PIOQEI.get` from the source: `self.sm.put(1)` then the blocking
`self.sm.get()`, observed across a window of sampling passes. -/
def PIOQEI_get (pinsSeq : List Nat) (s : SM) : Option Nat :=
  smGet pinsSeq (hostRequest s)

/-- Two's-complement reading of a 32-bit word as a signed integer. -/
def toInt32 (v : Nat) : Int :=
  if v % W < W / 2 then (v % W : Int) else (v % W : Int) - (W : Int)

theorem iter_noReq (x y isr osr : Nat) (rx : List Nat) (pins : Nat) :
    iter pins ⟨x, y, isr, osr, 15, [], rx⟩ =
      ⟨tableX ((isr % 4) * 4 + pins % 4) 0 y,
       tableY ((isr % 4) * 4 + pins % 4) y,
       (isr % 4) * 4 + pins % 4, isr, 15, [], rx⟩ := by
  obtain ⟨qp, rp, hrp, rfl⟩ : ∃ q r, r < 4 ∧ isr = 4 * q + r :=
    ⟨isr / 4, isr % 4, Nat.mod_lt _ (by norm_num), (Nat.div_add_mod isr 4).symm⟩
  obtain ⟨qc, rc, hrc, rfl⟩ : ∃ q r, r < 4 ∧ pins = 4 * q + r :=
    ⟨pins / 4, pins % 4, Nat.mod_lt _ (by norm_num), (Nat.div_add_mod pins 4).symm⟩
  have h4 : rp = 0 ∨ rp = 1 ∨ rp = 2 ∨ rp = 3 := by omega
  have c4 : rc = 0 ∨ rc = 1 ∨ rc = 2 ∨ rc = 3 := by omega
  rcases h4 with rfl | rfl | rfl | rfl <;> rcases c4 with rfl | rfl | rfl | rfl <;>
    simp +decide [iter, stepsTo15, step, tableX, tableY, Nat.mul_add_mod]

theorem iter_pullZero (x y isr osr : Nat) (rest rx : List Nat) (pins : Nat) :
    iter pins ⟨x, y, isr, osr, 15, 0 :: rest, rx⟩ =
      ⟨tableX ((isr % 4) * 4 + pins % 4) 0 y,
       tableY ((isr % 4) * 4 + pins % 4) y,
       (isr % 4) * 4 + pins % 4, isr, 15, rest, rx⟩ := by
  obtain ⟨qp, rp, hrp, rfl⟩ : ∃ q r, r < 4 ∧ isr = 4 * q + r :=
    ⟨isr / 4, isr % 4, Nat.mod_lt _ (by norm_num), (Nat.div_add_mod isr 4).symm⟩
  obtain ⟨qc, rc, hrc, rfl⟩ : ∃ q r, r < 4 ∧ pins = 4 * q + r :=
    ⟨pins / 4, pins % 4, Nat.mod_lt _ (by norm_num), (Nat.div_add_mod pins 4).symm⟩
  have h4 : rp = 0 ∨ rp = 1 ∨ rp = 2 ∨ rp = 3 := by omega
  have c4 : rc = 0 ∨ rc = 1 ∨ rc = 2 ∨ rc = 3 := by omega
  rcases h4 with rfl | rfl | rfl | rfl <;> rcases c4 with rfl | rfl | rfl | rfl <;>
    simp +decide [iter, stepsTo15, step, tableX, tableY, Nat.mul_add_mod]

theorem iter_push (x y isr osr v : Nat) (rest rx : List Nat) (pins : Nat)
    (hv : v ≠ 0) (hrx : rx.length < 4) :
    iter pins ⟨x, y, isr, osr, 15, v :: rest, rx⟩ =
      ⟨tableX ((isr % 4) * 4 + pins % 4) v y,
       tableY ((isr % 4) * 4 + pins % 4) y,
       (isr % 4) * 4 + pins % 4, isr, 15, rest, rx ++ [y]⟩ := by
  obtain ⟨qp, rp, hrp, rfl⟩ : ∃ q r, r < 4 ∧ isr = 4 * q + r :=
    ⟨isr / 4, isr % 4, Nat.mod_lt _ (by norm_num), (Nat.div_add_mod isr 4).symm⟩
  obtain ⟨qc, rc, hrc, rfl⟩ : ∃ q r, r < 4 ∧ pins = 4 * q + r :=
    ⟨pins / 4, pins % 4, Nat.mod_lt _ (by norm_num), (Nat.div_add_mod pins 4).symm⟩
  have h4 : rp = 0 ∨ rp = 1 ∨ rp = 2 ∨ rp = 3 := by omega
  have c4 : rc = 0 ∨ rc = 1 ∨ rc = 2 ∨ rc = 3 := by omega
  rcases h4 with rfl | rfl | rfl | rfl <;> rcases c4 with rfl | rfl | rfl | rfl <;>
    simp +decide [iter, stepsTo15, step, tableX, tableY, Nat.mul_add_mod, hv, hrx]

theorem iter_stall (x y isr osr v : Nat) (rest rx : List Nat) (pins : Nat)
    (hv : v ≠ 0) (hrx : ¬ rx.length < 4) :
    iter pins ⟨x, y, isr, osr, 15, v :: rest, rx⟩ =
      ⟨v, y, y, isr, 21, rest, rx⟩ := by
  simp +decide [iter, stepsTo15, step, hv, hrx]

theorem tableY_eq_applyAction (prev cur y : Nat) :
    tableY ((prev % 4) * 4 + cur % 4) y = applyAction (specTable prev cur) y := by
  have hp : prev % 4 = 0 ∨ prev % 4 = 1 ∨ prev % 4 = 2 ∨ prev % 4 = 3 := by omega
  have hc : cur % 4 = 0 ∨ cur % 4 = 1 ∨ cur % 4 = 2 ∨ cur % 4 = 3 := by omega
  rcases hp with hp | hp | hp | hp <;> rcases hc with hc | hc | hc | hc <;>
    simp +decide [tableY, specTable, applyAction, hp, hc, invert32, W] <;> omega

theorem tableY_lt (k y : Nat) (hy : y < W) : tableY k y < W := by
  unfold W at hy
  unfold tableY invert32 W
  split
  · omega
  · split <;> omega

theorem tableY_cases (k y : Nat) :
    tableY k y = y ∨ tableY k y = (y + 1) % W ∨ tableY k y = (y + (W - 1)) % W := by
  unfold tableY invert32 W
  split
  · omega
  · split
    · right; left; omega
    · left; rfl

theorem specTable_congr (a b cur : Nat) (h : a % 4 = b % 4) :
    specTable a cur = specTable b cur := by
  unfold specTable
  rw [h]

theorem specSim_congr (S : List Nat) (a b c : Nat) (h : a % 4 = b % 4) :
    specSim a c S = specSim b c S := by
  cases S with
  | nil => rfl
  | cons p rest => simp only [specSim, specTable_congr a b p h]

theorem applyAction_lt (a : QAct) (c : Nat) (hc : c < W) : applyAction a c < W := by
  unfold W at hc
  cases a <;> simp [applyAction, W] <;> omega

theorem runPins_cons (s : SM) (p : Nat) (rest : List Nat) :
    runPins s (p :: rest) = runPins (iter p s) rest := rfl

theorem runPins_eq_specSim (S : List Nat) :
    ∀ (x y isr osr : Nat) (rx : List Nat), y < W →
      (runPins ⟨x, y, isr, osr, 15, [], rx⟩ S).y = specSim isr y S := by
  induction S with
  | nil => intro x y isr osr rx hy; rfl
  | cons p rest ih =>
    intro x y isr osr rx hy
    rw [runPins_cons, iter_noReq]
    rw [ih _ _ _ _ _ (tableY_lt _ _ hy)]
    have hkey : ((isr % 4) * 4 + p % 4) % 4 = p % 4 := by omega
    rw [specSim_congr rest _ p _ hkey]
    have : specSim isr y (p :: rest) =
        specSim p (applyAction (specTable isr p) y) rest := rfl
    rw [this, tableY_eq_applyAction]

theorem step_rx_cases (p : Nat) (s : SM) :
    (step p s).rx = s.rx ∨ (step p s).rx = s.rx ++ [s.isr] := by
  obtain ⟨x, y, isr, osr, pc, tx, rx⟩ := s
  by_cases h : 29 ≤ pc
  · simp [step, h]
  · have hlt : pc < 29 := by omega
    interval_cases pc <;>
      first
        | (simp [step]; done)
        | (rcases tx with _ | ⟨v, rest⟩ <;> simp [step] <;> done)
        | (by_cases hr : List.length rx < 4 <;> simp [step, hr])

theorem step_rx_extend (p : Nat) (s : SM) : ∃ t, (step p s).rx = s.rx ++ t := by
  rcases step_rx_cases p s with h | h
  · exact ⟨[], by simp [h]⟩
  · exact ⟨[s.isr], h⟩

theorem stepsTo15_rx_extend (p : Nat) (n : Nat) :
    ∀ s : SM, ∃ t, (stepsTo15 p n s).rx = s.rx ++ t := by
  induction n with
  | zero => intro s; exact ⟨[], by simp [stepsTo15]⟩
  | succ n ih =>
    intro s
    obtain ⟨t1, ht1⟩ := step_rx_extend p s
    have h : stepsTo15 p (n + 1) s =
        if (step p s).pc = 15 then step p s else stepsTo15 p n (step p s) := rfl
    rw [h]
    split
    · exact ⟨t1, ht1⟩
    · obtain ⟨t2, ht2⟩ := ih (step p s)
      exact ⟨t1 ++ t2, by rw [ht2, ht1, List.append_assoc]⟩

theorem iter_rx_extend (p : Nat) (s : SM) : ∃ t, (iter p s).rx = s.rx ++ t :=
  stepsTo15_rx_extend p 20 s

theorem runPins_rx_extend (S : List Nat) :
    ∀ s : SM, ∃ t, (runPins s S).rx = s.rx ++ t := by
  induction S with
  | nil => intro s; exact ⟨[], by simp [runPins]⟩
  | cons p rest ih =>
    intro s
    obtain ⟨t1, ht1⟩ := iter_rx_extend p s
    obtain ⟨t2, ht2⟩ := ih (iter p s)
    exact ⟨t1 ++ t2, by simp [runPins, ht2, ht1, List.append_assoc]⟩

theorem iter_loopTop_y (s : SM) (pins : Nat) (hpc : s.pc = 15) :
    (iter pins s).y = tableY ((s.isr % 4) * 4 + pins % 4) s.y ∨ (iter pins s).y = s.y := by
  obtain ⟨x, y, isr, osr, pc, tx, rx⟩ := s
  obtain rfl : pc = 15 := hpc
  rcases tx with _ | ⟨v, rest⟩
  · left; rw [iter_noReq]
  · rcases eq_or_ne v 0 with rfl | hv
    · left; rw [iter_pullZero]
    · by_cases hr : List.length rx < 4
      · left; rw [iter_push x y isr osr v rest rx pins hv hr]
      · right; rw [iter_stall x y isr osr v rest rx pins hv hr]

theorem smGet_cons_empty (p : Nat) (rest : List Nat) (s : SM) (h : s.rx = []) :
    smGet (p :: rest) s = smGet rest (iter p s) := by
  simp only [smGet, h]

theorem smGet_noReq (S : List Nat) :
    ∀ x y isr osr : Nat, smGet S ⟨x, y, isr, osr, 15, [], []⟩ = none := by
  induction S with
  | nil => intro x y isr osr; rfl
  | cons p rest ih =>
    intro x y isr osr
    rw [smGet_cons_empty p rest _ rfl, iter_noReq]
    exact ih _ _ _ _

theorem smGet_afterRequest (x y isr osr p : Nat) (rest : List Nat) :
    smGet (p :: rest) (hostRequest ⟨x, y, isr, osr, 15, [], []⟩) = some y := by
  have h1 : hostRequest ⟨x, y, isr, osr, 15, [], []⟩ = ⟨x, y, isr, osr, 15, [1], []⟩ := rfl
  rw [h1, smGet_cons_empty p rest _ rfl,
    iter_push x y isr osr 1 [] [] p (by decide) (by decide)]
  cases rest <;> rfl

/-- C1: starting from power-on (Counter = 0, previous state seeded as the
ISR reset value 00), replaying any sequence of 2-bit pin samples through the
machine-level decoder yields the same final Counter as the direct
table-driven simulation of the 16-entry transition table, and each single
sampling pass applies exactly the table action selected by the 4-bit key
(previous, current): the computed-jump table reproduces the table for all
16 keys. -/
theorem c1_decoder_matches_table :
    (∀ p : Nat, step p initSM = initTop) ∧
    (∀ S : List Nat, (runPins initTop S).y = specSim 0 0 S) ∧
    (∀ (s : SM) (pins : Nat), s.pc = 15 → s.tx = [] → s.y < W →
      (iter pins s).y = applyAction (specTable s.isr pins) s.y) := by
  refine ⟨fun p => rfl, fun S => runPins_eq_specSim S 0 0 0 0 [] (by decide), ?_⟩
  intro s pins hpc htx hy
  obtain ⟨x, y, isr, osr, pc, tx, rx⟩ := s
  obtain rfl : pc = 15 := hpc
  obtain rfl : tx = [] := htx
  rw [iter_noReq, ← tableY_eq_applyAction isr pins y]

theorem c1_decoder_matches_table_witness :
    (iter 2 ⟨0, 5, 0, 0, 15, [], []⟩).y = 6 :=
  c1_decoder_matches_table.2.2 ⟨0, 5, 0, 0, 15, [], []⟩ 2 rfl rfl (by decide)

/-- C2 counterexample: the claim says the first sampling iteration is always
NoOp for every possible initial pin reading.  It is not: from power-on
(previous state seeded as 00, Counter 0), a first reading of 01 selects key
0001 (Decrement) and leaves the Counter at 2^32 - 1, not 0. -/
theorem c2_counterexample :
    (iter 1 (step 1 initSM)).y = W - 1 ∧ (iter 1 (step 1 initSM)).y ≠ 0 := by
  decide

/-- C2 amended: the previous PinState is seeded as 00 (the reset value of
ISR), not from the first actual sample.  The first sampling iteration after
initialization therefore applies the table action for the pair
(00, first sample): it leaves the Counter unchanged exactly when the first
sample reads 00 or 11, decrements on 01 and increments on 10. -/
theorem c2_first_iteration (p : Nat) :
    (iter p (step p initSM)).y = applyAction (specTable 0 p) 0 ∧
    ((iter p (step p initSM)).y = 0 ↔ (p % 4 = 0 ∨ p % 4 = 3)) := by
  have hboot : step p initSM = ⟨0, 0, 0, 0, 15, [], []⟩ := rfl
  rw [hboot, iter_noReq, ← tableY_eq_applyAction 0 p 0]
  refine ⟨rfl, ?_⟩
  have hc : p % 4 = 0 ∨ p % 4 = 1 ∨ p % 4 = 2 ∨ p % 4 = 3 := by omega
  rcases hc with hc | hc | hc | hc <;> simp +decide [tableY, hc, invert32, W]

/-- C3 counterexample: the claim says the value the consumer takes equals
the Counter as of the sampling iteration that first observed the pending
request, including that iteration's increment/decrement.  Concretely: from
power-on, one pass reading 10 increments the Counter to 1; the host then
requests (put 1); the next pass reads 11 (an increment key) and services
the request.  That servicing pass raises the Counter to 2, yet the value it
pushes for the consumer is 1 — the pass pushes the Counter before applying
its own sample action, so the taken value excludes the servicing pass's
increment. -/
theorem c3_counterexample :
    (iter 3 (hostRequest (iter 2 initTop))).y = 2 ∧
    (iter 3 (hostRequest (iter 2 initTop))).rx = [1] := by
  decide

/-- C3 amended: a sampling pass services a pending request first — pull,
then push the Counter — and only then samples the pins and applies the
table action.  The value made available to the consumer therefore equals
the Counter at the start of the servicing pass (the value including all
strictly earlier sample actions and excluding the servicing pass's own
action), and it is unaffected by any subsequent sampling iterations: it
stays in place at the front of what the pass appended to the RX FIFO. -/
theorem c3_service_before_sample (s : SM) (v : Nat) (rest : List Nat) (pins : Nat)
    (hpc : s.pc = 15) (htx : s.tx = v :: rest) (hv : v ≠ 0)
    (hrx : s.rx.length < 4) :
    (iter pins s).rx = s.rx ++ [s.y] ∧
    (iter pins s).y = tableY ((s.isr % 4) * 4 + pins % 4) s.y ∧
    ∀ future : List Nat,
      (runPins (iter pins s) future).rx.take (s.rx.length + 1) = s.rx ++ [s.y] := by
  obtain ⟨x, y, isr, osr, pc, tx, rx⟩ := s
  obtain rfl : pc = 15 := hpc
  obtain rfl : tx = v :: rest := htx
  rw [iter_push x y isr osr v rest rx pins hv hrx]
  refine ⟨rfl, rfl, ?_⟩
  intro future
  obtain ⟨t, ht⟩ := runPins_rx_extend future
    ⟨tableX ((isr % 4) * 4 + pins % 4) v y, tableY ((isr % 4) * 4 + pins % 4) y,
     (isr % 4) * 4 + pins % 4, isr, 15, rest, rx ++ [y]⟩
  have hlen : (rx ++ [y]).length = rx.length + 1 := by simp
  rw [ht]
  show ((rx ++ [y]) ++ t).take (rx.length + 1) = rx ++ [y]
  rw [← hlen, List.take_left]

theorem c3_service_before_sample_witness :
    (iter 3 ⟨0, 5, 2, 0, 15, [1], []⟩).rx = [5] ∧
    (iter 3 ⟨0, 5, 2, 0, 15, [1], []⟩).y = 6 ∧
    (runPins (iter 3 ⟨0, 5, 2, 0, 15, [1], []⟩) [0, 0]).rx.take 1 = [5] := by
  have h := c3_service_before_sample ⟨0, 5, 2, 0, 15, [1], []⟩ 1 [] 3
    rfl rfl (by decide) (by decide)
  exact ⟨h.1, h.2.1, h.2.2 [0, 0]⟩

/-- C4 counterexample: feeding 00, 01, 11, 10, 00 from power-on does not
leave the Counter at +4.  Per the table this sequence is four Decrement
steps (00 to 01 is Decrement, and so on around the cycle), so the 32-bit
Counter ends at 2^32 - 4, which reads as -4 in two's complement. -/
theorem c4_counterexample :
    (runPins initTop [0, 1, 3, 2, 0]).y ≠ 4 ∧
    (runPins initTop [0, 1, 3, 2, 0]).y = W - 4 := by
  decide

/-- C4 amended: the sequence 00, 01, 11, 10, 00 from Counter 0 yields
Counter = -4 (the register holds 2^32 - 4, the two's-complement encoding of
-4), which is exactly what the table-driven simulation gives: the first
sample 00 pairs with the seeded previous state 00 (NoOp) and the four
single-step transitions of the rotation are all Decrement. -/
theorem c4_full_rotation :
    (runPins initTop [0, 1, 3, 2, 0]).y = W - 4 ∧
    toInt32 (runPins initTop [0, 1, 3, 2, 0]).y = -4 ∧
    specSim 0 0 [0, 1, 3, 2, 0] = W - 4 := by
  decide

/-- C5: for every Counter value and every loop-head state, a sampling
iteration whose (previous, current) pair is an invalid transition (00 to 11,
11 to 00, 01 to 10, 10 to 01) or an unchanged pair (the same 2-bit sample
twice in a row) leaves the Counter exactly unchanged, whatever the FIFOs
hold. -/
theorem c5_invalid_or_unchanged_noop (s : SM) (pins : Nat) (hpc : s.pc = 15)
    (h : s.isr % 4 = pins % 4 ∨
         (s.isr % 4 = 0 ∧ pins % 4 = 3) ∨ (s.isr % 4 = 3 ∧ pins % 4 = 0) ∨
         (s.isr % 4 = 1 ∧ pins % 4 = 2) ∨ (s.isr % 4 = 2 ∧ pins % 4 = 1)) :
    (iter pins s).y = s.y := by
  rcases iter_loopTop_y s pins hpc with hy | hy
  · rw [hy]
    unfold tableY
    rw [if_neg (by omega), if_neg (by omega)]
  · exact hy

theorem c5_invalid_or_unchanged_noop_witness :
    (iter 3 ⟨0, 9, 0, 0, 15, [], []⟩).y = 9 :=
  c5_invalid_or_unchanged_noop ⟨0, 9, 0, 0, 15, [], []⟩ 3 rfl (by decide)

/-- C6: across one execution of the sampling pass from any loop-head state,
the 32-bit Counter either stays unchanged, or becomes (y + 1) mod 2^32, or
becomes (y - 1) mod 2^32 (written (y + 2^32 - 1) mod 2^32): no path through
the pass moves the Counter by more than one step. -/
theorem c6_counter_step_bounded (s : SM) (pins : Nat) (hpc : s.pc = 15) :
    (iter pins s).y = s.y ∨ (iter pins s).y = (s.y + 1) % W ∨
    (iter pins s).y = (s.y + (W - 1)) % W := by
  rcases iter_loopTop_y s pins hpc with hy | hy
  · rw [hy]; exact tableY_cases _ _
  · left; exact hy

theorem c6_counter_step_bounded_witness :
    (iter 2 ⟨0, 0, 0, 0, 15, [], []⟩).y = 0 ∨
    (iter 2 ⟨0, 0, 0, 0, 15, [], []⟩).y = (0 + 1) % W ∨
    (iter 2 ⟨0, 0, 0, 0, 15, [], []⟩).y = (0 + (W - 1)) % W :=
  c6_counter_step_bounded ⟨0, 0, 0, 0, 15, [], []⟩ 2 rfl

/-- C7 counterexample: the claim says the hand-off holds at most one
produced value and that a newly produced value overwrites an unconsumed
one.  It does not: the hand-off is a pair of 4-deep hardware FIFOs.  With
two requests queued and none of the produced values consumed, two sampling
passes (reading 10 then 11, each incrementing) leave both produced values
0 and 1 queued in order in the RX FIFO — the older value is still there,
nothing was overwritten. -/
theorem c7_counterexample :
    (iter 3 (iter 2 (hostRequest (hostRequest initTop)))).rx = [0, 1] ∧
    1 < (iter 3 (iter 2 (hostRequest (hostRequest initTop)))).rx.length := by
  decide

/-- C7 amended: produced values are queued, never overwritten: a servicing
pass appends the Counter to the RX FIFO behind any unconsumed values (when
the FIFO has room, and the pass returns to the loop head); when four
produced values are already unconsumed, the pass does not drop or overwrite
anything — it stalls on the blocking push (Counter and RX FIFO unchanged,
the machine stuck at the push instruction) until the consumer drains the
FIFO. -/
theorem c7_values_queue_not_overwrite (s : SM) (v : Nat) (rest : List Nat)
    (pins : Nat) (hpc : s.pc = 15) (htx : s.tx = v :: rest) (hv : v ≠ 0) :
    (s.rx.length < 4 →
      (iter pins s).rx = s.rx ++ [s.y] ∧ (iter pins s).pc = 15) ∧
    (¬ s.rx.length < 4 →
      (iter pins s).rx = s.rx ∧ (iter pins s).y = s.y ∧ (iter pins s).pc = 21) := by
  obtain ⟨x, y, isr, osr, pc, tx, rx⟩ := s
  obtain rfl : pc = 15 := hpc
  obtain rfl : tx = v :: rest := htx
  constructor
  · intro hr
    rw [iter_push x y isr osr v rest rx pins hv hr]
    exact ⟨rfl, rfl⟩
  · intro hr
    rw [iter_stall x y isr osr v rest rx pins hv hr]
    exact ⟨rfl, rfl, rfl⟩

theorem c7_values_queue_not_overwrite_witness :
    (iter 0 ⟨0, 7, 0, 0, 15, [1], [3]⟩).rx = [3, 7] ∧
    (iter 0 ⟨0, 7, 0, 0, 15, [1], [3]⟩).pc = 15 :=
  (c7_values_queue_not_overwrite ⟨0, 7, 0, 0, 15, [1], [3]⟩ 1 [] 0
    rfl rfl (by decide)).1 (by decide)

/-- C8 counterexample: the claim says the consumer-side take returns
nothing immediately when no value has been produced.  It does not return:
the take is MicroPython's blocking `sm.get()`, and with no prior request
the RX FIFO is still empty after ten further sampling passes — the call is
still waiting, not returning "nothing". -/
theorem c8_counterexample :
    smGet (List.replicate 10 0) initTop = none ∧
    (runPins initTop (List.replicate 10 0)).rx = [] := by
  decide

/-- C8 amended: the consumer-side take (`sm.get()`) is blocking, not
non-blocking: called at a loop-head state with no pending request and no
produced value, it obtains no value within any window of further sampling
passes — it waits indefinitely instead of returning nothing.  The source's
`PIOQEI.get` always writes a request first (`sm.put(1)`), after which the
blocking take returns the Counter value at the servicing pass within one
sampling pass. -/
theorem c8_take_blocks (s : SM) (hpc : s.pc = 15) (htx : s.tx = [])
    (hrx : s.rx = []) :
    (∀ pinsSeq : List Nat, smGet pinsSeq s = none) ∧
    (∀ (p : Nat) (rest : List Nat), smGet (p :: rest) (hostRequest s) = some s.y) := by
  obtain ⟨x, y, isr, osr, pc, tx, rx⟩ := s
  obtain rfl : pc = 15 := hpc
  obtain rfl : tx = [] := htx
  obtain rfl : rx = [] := hrx
  exact ⟨fun pinsSeq => smGet_noReq pinsSeq x y isr osr,
         fun p rest => smGet_afterRequest x y isr osr p rest⟩

theorem c8_take_blocks_witness :
    smGet [0, 0] ⟨0, 3, 0, 0, 15, [], []⟩ = none ∧
    smGet [0] (hostRequest ⟨0, 3, 0, 0, 15, [], []⟩) = some 3 :=
  ⟨(c8_take_blocks ⟨0, 3, 0, 0, 15, [], []⟩ rfl rfl rfl).1 [0, 0],
   (c8_take_blocks ⟨0, 3, 0, 0, 15, [], []⟩ rfl rfl rfl).2 0 []⟩

/-- C9: the counter arithmetic is exact 32-bit modular arithmetic.  The
increment block (invert Y into X, decrement X with a jump whose target is
the next address, invert X back into Y) maps every 32-bit Y to
(Y + 1) mod 2^32, ends at the loop head, and touches nothing but X, Y and
the program counter.  The decrement instruction (`jmp(y_dec, "update")`,
whose target is the next address) maps Y to (Y - 1) mod 2^32 in a single
step with no effect on control flow (it always lands on the next
instruction) or any other register or FIFO.  The two trailing conjuncts
read the Nat results as integer arithmetic modulo 2^32. -/
theorem c9_inc_dec_exact (x y isr osr : Nat) (tx rx : List Nat) (pins : Nat)
    (hy : y < W) :
    (step pins (step pins (step pins ⟨x, y, isr, osr, 26, tx, rx⟩)) =
      ⟨(invert32 y + (W - 1)) % W, (y + 1) % W, isr, osr, 15, tx, rx⟩) ∧
    (step pins ⟨x, y, isr, osr, 14, tx, rx⟩ =
      ⟨x, (y + (W - 1)) % W, isr, osr, 15, tx, rx⟩) ∧
    (((y + 1) % W : Nat) : Int) = ((y : Int) + 1) % (W : Int) ∧
    (((y + (W - 1)) % W : Nat) : Int) = ((y : Int) - 1) % (W : Int) := by
  have hy2 : y < 4294967296 := hy
  refine ⟨?_, rfl, ?_, ?_⟩
  · simp [step, SM.mk.injEq, invert32, W]
    omega
  · simp only [W]
    omega
  · simp only [W]
    omega

theorem c9_inc_dec_exact_witness :
    (step 0 (step 0 (step 0 ⟨0, 0, 0, 0, 26, [], []⟩)) =
      ⟨(invert32 0 + (W - 1)) % W, (0 + 1) % W, 0, 0, 15, [], []⟩) ∧
    (step 0 ⟨0, 0, 0, 0, 14, [], []⟩ =
      ⟨0, (0 + (W - 1)) % W, 0, 0, 15, [], []⟩) ∧
    (((0 + 1) % W : Nat) : Int) = ((0 : Int) + 1) % (W : Int) ∧
    (((0 + (W - 1)) % W : Nat) : Int) = ((0 : Int) - 1) % (W : Int) :=
  c9_inc_dec_exact 0 0 0 0 [] [] 0 (by decide)

/-- C10: a request is signalled only by a nonzero word.  A sampling pass
that pulls the value 0 behaves exactly as a pass with no request pending —
same registers, same Counter, same RX FIFO (it pushes no count) — except
that the 0 is consumed from the TX FIFO; and the host-side `PIOQEI.get`
always writes the value 1 to the request channel. -/
theorem c10_zero_request_ignored (x y isr osr : Nat) (rest rx : List Nat)
    (pins : Nat) :
    (iter pins ⟨x, y, isr, osr, 15, 0 :: rest, rx⟩ =
      { iter pins ⟨x, y, isr, osr, 15, [], rx⟩ with tx := rest }) ∧
    (iter pins ⟨x, y, isr, osr, 15, 0 :: rest, rx⟩).rx = rx ∧
    (∀ s : SM, s.tx.length < 4 → (hostRequest s).tx = s.tx ++ [1]) := by
  refine ⟨?_, ?_, ?_⟩
  · rw [iter_pullZero, iter_noReq]
  · rw [iter_pullZero]
  · intro s hs
    simp [hostRequest, hs]

theorem c10_zero_request_ignored_witness :
    (iter 1 ⟨0, 4, 0, 0, 15, [0], []⟩ =
      { iter 1 ⟨0, 4, 0, 0, 15, [], []⟩ with tx := ([] : List Nat) }) ∧
    (iter 1 ⟨0, 4, 0, 0, 15, [0], []⟩).rx = [] ∧
    (hostRequest initTop).tx = [] ++ [1] := by
  have h := c10_zero_request_ignored 0 4 0 0 [] [] 1
  exact ⟨h.1, h.2.1, h.2.2 initTop (by decide)⟩
